import Mathlib

/-!
Verification of the todo-list Markdown store in `src/server.js`.

The embedding models JS strings as `List Char`.  The pure core is the
document codec (`parseTodoMd` / `serializeTodoMd`) and the seven route
handlers' in-memory transformations.  File-system and git effects are
modelled as follows: the content of `TODO.md` is the input of
`parseTodoMd` (with `readTodo` handling the missing-file case), and a
call to `saveTodoMd` (local write followed by `commitAndPush`) is
modelled as the second component of each operation's result — `some msg`
means `saveTodoMd` was invoked with commit message `msg`, `none` means
it was not invoked at all (so no write and no publish attempt happen).
-/

namespace Todo

/-- A todo entry, `{ done: boolean, text: string }` in `server.js`. -/
structure Item where
  done : Bool
  text : List Char
  deriving DecidableEq

/-- A named group of items, `{ name, items }` in `server.js`. -/
structure Section where
  name : List Char
  items : List Item
  deriving DecidableEq

/-- The whole todo list, `{ sections }` in `server.js`. -/
structure Document where
  sections : List Section
  deriving DecidableEq

/-- The characters stripped by JavaScript `String.prototype.trim`:
ECMAScript WhiteSpace (TAB, VT, FF, SP, NBSP, ZWNBSP and the Unicode
space separators) together with the line terminators LF, CR, LS, PS. -/
def isWS (c : Char) : Bool :=
  c == '\t' || c == '\n' || c == '\u000B' || c == '\u000C' || c == '\r' ||
  c == ' ' || c == '\u00A0' || c == '\u1680' ||
  (0x2000 ≤ c.toNat && c.toNat ≤ 0x200A) ||
  c == '\u2028' || c == '\u2029' || c == '\u202F' || c == '\u205F' ||
  c == '\u3000' || c == '\uFEFF'

/-- JavaScript `s.trim()`: drop whitespace from both ends. -/
def jsTrim (s : List Char) : List Char :=
  ((s.dropWhile isWS).reverse.dropWhile isWS).reverse

/-- The characters matched by `.` in a JavaScript regex without the `s`
flag: everything except the line terminators LF, CR, LS, PS. -/
def isDot (c : Char) : Bool :=
  !(c == '\n' || c == '\r' || c == '\u2028' || c == '\u2029')

/-- JavaScript `content.split('\n')`. -/
def splitLines : List Char → List (List Char)
  | [] => [[]]
  | c :: cs =>
    if c = '\n' then [] :: splitLines cs
    else
      match splitLines cs with
      | [] => [[c]]
      | l :: ls => (c :: l) :: ls

/-- `line.match(/^## (.+)$/)`: returns the captured group.  The `.+`
must reach the end of the line, so it requires a non-empty remainder
all of whose characters are matched by `.`. -/
def matchSection : List Char → Option (List Char)
  | c1 :: c2 :: c3 :: rest =>
    if c1 == '#' && c2 == '#' && c3 == ' ' && !rest.isEmpty && rest.all isDot
    then some rest else none
  | _ => none

/-- `line.match(/^- \[([ xX])\] (.+)$/)`: returns the completion marker
interpreted as a Bool (`marker !== ' '`, as in `parseTodoMd`) and the
captured text. -/
def matchItem : List Char → Option (Bool × List Char)
  | c1 :: c2 :: c3 :: m :: c5 :: c6 :: rest =>
    if c1 == '-' && c2 == ' ' && c3 == '[' && (m == ' ' || m == 'x' || m == 'X') &&
       c5 == ']' && c6 == ' ' && !rest.isEmpty && rest.all isDot
    then some (m != ' ', rest) else none
  | _ => none

/-- The line scan of `parseTodoMd`.  `acc` holds the finished sections,
`cur` the section items are currently appended to (in the JS source the
current section already sits in `sections` and is mutated in place;
here it is kept at the end via `acc ++ cur.toList`). -/
def parseLoop : List (List Char) → List Section → Option Section → List Section
  | [], acc, cur => acc ++ cur.toList
  | line :: rest, acc, cur =>
    match matchSection line with
    | some name => parseLoop rest (acc ++ cur.toList) (some ⟨jsTrim name, []⟩)
    | none =>
      match matchItem line with
      | some (d, t) =>
        match cur with
        | some s => parseLoop rest acc (some ⟨s.name, s.items ++ [⟨d, jsTrim t⟩]⟩)
        | none => parseLoop rest acc none
      | none => parseLoop rest acc cur

/-- `parseTodoMd` on the content of `TODO.md`: scan the lines; if no
section was produced, fall back to a single empty "General" section. -/
def parseTodoMd (content : List Char) : Document :=
  let sections := parseLoop (splitLines content) [] none
  if sections.isEmpty then ⟨[⟨"General".data, []⟩]⟩ else ⟨sections⟩

/-- The branch of `parseTodoMd` on `fs.existsSync`: a missing
`TODO.md` yields the default document, otherwise the content is
parsed. -/
def readTodo : Option (List Char) → Document
  | none => ⟨[⟨"General".data, []⟩]⟩
  | some content => parseTodoMd content

/-- The `## <name>` header line written by `serializeTodoMd`. -/
def headerLine (name : List Char) : List Char :=
  '#' :: '#' :: ' ' :: name

/-- The `- [x] <text>` / `- [ ] <text>` line written by
`serializeTodoMd`, without its terminating newline. -/
def itemLine (it : Item) : List Char :=
  '-' :: ' ' :: '[' :: (if it.done then 'x' else ' ') :: ']' :: ' ' :: it.text

/-- One item of `serializeTodoMd`'s output: `- [.] text\n`. -/
def serializeItem (it : Item) : List Char :=
  itemLine it ++ ['\n']

/-- One section of `serializeTodoMd`'s output:
`\n## name\n\n` followed by the item lines. -/
def serializeSection (s : Section) : List Char :=
  '\n' :: (headerLine s.name ++ '\n' :: '\n' :: (s.items.map serializeItem).flatten)

/-- `serializeTodoMd`: the title line followed by each section. -/
def serializeTodoMd (d : Document) : List Char :=
  "# Todo List\n".data ++ (d.sections.map serializeSection).flatten

/-- The lines `splitLines` recovers from one serialized section: a
blank line, the header, a blank line, then one line per item. -/
def sectionLines (s : Section) : List (List Char) :=
  [] :: headerLine s.name :: [] :: s.items.map itemLine

/-- `data.sections.find(s => s.name === name)`. -/
def findSection : List Section → List Char → Option Section
  | [], _ => none
  | s :: rest, name => if s.name = name then some s else findSection rest name

/-- Replace the first section whose name is `name` by its image under
`f`; models the JS pattern of `find`ing a section object and mutating
it in place inside `data.sections`. -/
def updateFirst : List Section → List Char → (Section → Section) → List Section
  | [], _, _ => []
  | s :: rest, name, f =>
    if s.name = name then f s :: rest else s :: updateFirst rest name f

/-- `sec.items[index]` for a non-negative integer index. -/
def nthItem : List Item → Nat → Option Item
  | [], _ => none
  | it :: _, 0 => some it
  | _ :: rest, n + 1 => nthItem rest n

/-- In-place update `sec.items[index] = a` (out of range: unchanged). -/
def setNth : List Item → Nat → Item → List Item
  | [], _, _ => []
  | _ :: rest, 0, a => a :: rest
  | it :: rest, n + 1, a => it :: setNth rest n a

/-- `sec.items.splice(index, 1)` for an in-range index. -/
def removeNth : List Item → Nat → List Item
  | [], _ => []
  | _ :: rest, 0 => rest
  | it :: rest, n + 1 => it :: removeNth rest n

/-- `POST /api/todos`: append `{done:false, text}` to the named section
if it exists; the second component is the `saveTodoMd` commit message
(`none` when `saveTodoMd` is not called). -/
def addItem (d : Document) (name text : List Char) : Document × Option (List Char) :=
  match findSection d.sections name with
  | some _ =>
    (⟨updateFirst d.sections name (fun s => ⟨s.name, s.items ++ [⟨false, text⟩]⟩)⟩,
      some ("Add: ".data ++ text))
  | none => (d, none)

/-- `PUT /api/todos/toggle`: flip `done` on `sec.items[index]` when the
section exists and the index is in range. -/
def toggleItem (d : Document) (name : List Char) (index : Nat) :
    Document × Option (List Char) :=
  match findSection d.sections name with
  | some sec =>
    match nthItem sec.items index with
    | some it =>
      (⟨updateFirst d.sections name
          (fun s => ⟨s.name, setNth s.items index ⟨!it.done, it.text⟩⟩)⟩,
        some ((if !it.done then "Complete: ".data else "Reopen: ".data) ++ it.text))
    | none => (d, none)
  | none => (d, none)

/-- `PUT /api/todos/edit`: replace the text of `sec.items[index]`. -/
def editItem (d : Document) (name : List Char) (index : Nat) (text : List Char) :
    Document × Option (List Char) :=
  match findSection d.sections name with
  | some sec =>
    match nthItem sec.items index with
    | some it =>
      (⟨updateFirst d.sections name
          (fun s => ⟨s.name, setNth s.items index ⟨it.done, text⟩⟩)⟩,
        some ("Edit: \"".data ++ it.text ++ "\" → \"".data ++ text ++ "\"".data))
    | none => (d, none)
  | none => (d, none)

/-- `DELETE /api/todos`: splice out `sec.items[index]` when present. -/
def removeItem (d : Document) (name : List Char) (index : Nat) :
    Document × Option (List Char) :=
  match findSection d.sections name with
  | some sec =>
    match nthItem sec.items index with
    | some it =>
      (⟨updateFirst d.sections name (fun s => ⟨s.name, removeNth s.items index⟩)⟩,
        some ("Remove: ".data ++ it.text))
    | none => (d, none)
  | none => (d, none)

/-- `POST /api/sections`: `if (name && !data.sections.find(...))`
append an empty section.  The empty list also models an absent `name`
field, since both `''` and `undefined` are falsy in JS. -/
def addSection (d : Document) (name : List Char) : Document × Option (List Char) :=
  if name ≠ [] ∧ findSection d.sections name = none then
    (⟨d.sections ++ [⟨name, []⟩]⟩, some ("Add section: ".data ++ name))
  else (d, none)

/-- `DELETE /api/sections`: drop every section whose name equals
`name`; reinsert the default "General" section if none remain.
`saveTodoMd` is called unconditionally. -/
def removeSection (d : Document) (name : List Char) : Document × Option (List Char) :=
  let remaining := d.sections.filter (fun s => s.name != name)
  (⟨if remaining.isEmpty then [⟨"General".data, []⟩] else remaining⟩,
    some ("Remove section: ".data ++ name))

/-- A sequence of `DELETE /api/sections` calls, keeping the document. -/
def removeSeq (d : Document) (names : List (List Char)) : Document :=
  names.foldl (fun doc n => (removeSection doc n).fst) d

/-- The strings that survive the codec unchanged: non-empty, every
character matched by the regex `.`, and invariant under `trim`. -/
def goodStr (s : List Char) : Prop :=
  s ≠ [] ∧ s.all isDot = true ∧ jsTrim s = s

instance (s : List Char) : Decidable (goodStr s) :=
  show Decidable (s ≠ [] ∧ s.all isDot = true ∧ jsTrim s = s) from inferInstance

/-- A section whose stored strings are already trimmed. -/
def trimOK (sec : Section) : Prop :=
  jsTrim sec.name = sec.name ∧ ∀ it ∈ sec.items, jsTrim it.text = it.text

end Todo

namespace Todo

lemma parseLoop_nil (acc : List Section) (cur : Option Section) :
    parseLoop [] acc cur = acc ++ cur.toList := rfl

lemma parseLoop_skip (line : List Char) (rest : List (List Char)) (acc : List Section)
    (cur : Option Section) (h1 : matchSection line = none) (h2 : matchItem line = none) :
    parseLoop (line :: rest) acc cur = parseLoop rest acc cur := by
  simp [parseLoop, h1, h2]

lemma parseLoop_header (line : List Char) (rest : List (List Char)) (acc : List Section)
    (cur : Option Section) (name : List Char) (h : matchSection line = some name) :
    parseLoop (line :: rest) acc cur
      = parseLoop rest (acc ++ cur.toList) (some ⟨jsTrim name, []⟩) := by
  simp [parseLoop, h]

lemma parseLoop_item (line : List Char) (rest : List (List Char)) (acc : List Section)
    (s : Section) (d : Bool) (t : List Char)
    (h1 : matchSection line = none) (h2 : matchItem line = some (d, t)) :
    parseLoop (line :: rest) acc (some s)
      = parseLoop rest acc (some ⟨s.name, s.items ++ [⟨d, jsTrim t⟩]⟩) := by
  simp [parseLoop, h1, h2]

lemma parseLoop_item_none (line : List Char) (rest : List (List Char)) (acc : List Section)
    (d : Bool) (t : List Char)
    (h1 : matchSection line = none) (h2 : matchItem line = some (d, t)) :
    parseLoop (line :: rest) acc none = parseLoop rest acc none := by
  simp [parseLoop, h1, h2]

lemma parse_sections_ne_nil (content : List Char) : (parseTodoMd content).sections ≠ [] := by
  simp only [parseTodoMd]
  by_cases h : (parseLoop (splitLines content) [] none).isEmpty
  · simp [h]
  · rw [if_neg h]
    intro hnil
    exact h (by simp at hnil; simp [hnil])

lemma parseLoop_no_section (lines : List (List Char)) (acc : List Section)
    (h : ∀ l ∈ lines, matchSection l = none) :
    parseLoop lines acc none = acc := by
  induction lines with
  | nil => simp [parseLoop]
  | cons line rest ih =>
    have h1 : matchSection line = none := h line (by simp)
    have h2 : ∀ l ∈ rest, matchSection l = none := fun l hl => h l (by simp [hl])
    cases hmi : matchItem line with
    | none => rw [parseLoop_skip line rest acc none h1 hmi]; exact ih h2
    | some dt => rw [parseLoop_item_none line rest acc dt.1 dt.2 h1 (by simpa using hmi)]
                 exact ih h2

lemma findSection_eq_none (l : List Section) (n : List Char)
    (h : findSection l n = none) : ∀ s ∈ l, s.name ≠ n := by
  induction l with
  | nil => simp
  | cons s rest ih =>
    by_cases hs : s.name = n
    · simp [findSection, hs] at h
    · intro x hx
      rcases List.mem_cons.mp hx with rfl | hx'
      · exact hs
      · exact ih (by simpa [findSection, hs] using h) x hx'

lemma findSection_eq_some (l : List Section) (n : List Char) (s : Section)
    (h : findSection l n = some s) : s ∈ l ∧ s.name = n := by
  induction l with
  | nil => simp [findSection] at h
  | cons x rest ih =>
    by_cases hx : x.name = n
    · have : x = s := by simpa [findSection, hx] using h
      subst this
      exact ⟨List.mem_cons_self x rest, hx⟩
    · have := ih (by simpa [findSection, hx] using h)
      exact ⟨List.mem_cons_of_mem x this.1, this.2⟩

lemma removeSection_sections_ne_nil (d : Document) (n : List Char) :
    ((removeSection d n).fst).sections ≠ [] := by
  simp only [removeSection]
  by_cases h : (d.sections.filter (fun s => s.name != n)).isEmpty
  · simp [h]
  · rw [if_neg h]
    intro hnil
    exact h (by simp at hnil; simpa using hnil)

lemma removeSeq_sections_ne_nil (names : List (List Char)) :
    ∀ d : Document, d.sections ≠ [] → (removeSeq d names).sections ≠ [] := by
  induction names with
  | nil => intro d h; exact h
  | cons n rest ih =>
    intro d _
    exact ih _ (removeSection_sections_ne_nil d n)

/-- C8: serializing the one-section document
`[{name:"Work", items:[{done:true, text:"ship"}]}]` yields exactly
`"# Todo List\n\n## Work\n\n- [x] ship\n"`. -/
theorem serialize_work_scenario :
    serializeTodoMd ⟨[⟨"Work".data, [⟨true, "ship".data⟩]⟩]⟩
      = "# Todo List\n\n## Work\n\n- [x] ship\n".data := by decide

/-- C10: `addSection` with an empty (or absent, both being falsy) name
returns the document unchanged and does not call `saveTodoMd`, so no
file write and no publish happen. -/
theorem addSection_empty_noop (d : Document) : addSection d [] = (d, none) := by
  simp [addSection]

/-- Witness for C10 on a concrete document. -/
theorem addSection_empty_noop_witness :
    addSection ⟨[⟨"General".data, [⟨false, "a".data⟩]⟩]⟩ []
      = (⟨[⟨"General".data, [⟨false, "a".data⟩]⟩]⟩, none) :=
  addSection_empty_noop ⟨[⟨"General".data, [⟨false, "a".data⟩]⟩]⟩

/-- C5: parsing is total: `readTodo` is a total function of the
persisted text (it never throws by construction — every case of the
translated code is covered), the absence of persisted text yields the
default one-section document, and every input yields a document with
at least one section (unrecognized lines are skipped, not errors). -/
theorem readTodo_total :
    readTodo none = ⟨[⟨"General".data, []⟩]⟩ ∧
    ∀ file, (readTodo file).sections ≠ [] := by
  constructor
  · rfl
  · intro file
    cases file with
    | none => simp [readTodo]
    | some content => exact parse_sections_ne_nil content

/-- Witness for C5 on a malformed concrete content. -/
theorem readTodo_total_witness :
    (readTodo (some "- broken\n## \njunk".data)).sections ≠ [] :=
  readTodo_total.2 (some "- broken\n## \njunk".data)

/-- C4: if no line of the input matches the section-header pattern,
parsing yields exactly one empty "General" section; in particular
checklist lines before any header contribute no items. -/
theorem parse_no_header_default (content : List Char)
    (h : ∀ l ∈ splitLines content, matchSection l = none) :
    parseTodoMd content = ⟨[⟨"General".data, []⟩]⟩ := by
  simp only [parseTodoMd]
  rw [parseLoop_no_section _ _ h]
  rfl

/-- Witness for C4 at a content whose only lines are a checklist line
and an unrecognized line. -/
theorem parse_no_header_default_witness :
    parseTodoMd "- [ ] stray\nhello".data = ⟨[⟨"General".data, []⟩]⟩ :=
  parse_no_header_default "- [ ] stray\nhello".data (by decide)

end Todo

namespace Todo

/-- C2 counterexample: on an addressing miss (section "Nope" does not
exist) each operation leaves the document unchanged but `saveTodoMd` is
never invoked (second component `none`), so no publish attempt — not
even a no-op one — is made, contrary to the claim. -/
theorem noop_addressing_counterexample :
    findSection (Document.mk [⟨"General".data, []⟩]).sections "Nope".data = none ∧
    addItem ⟨[⟨"General".data, []⟩]⟩ "Nope".data "x".data
      = (⟨[⟨"General".data, []⟩]⟩, none) ∧
    toggleItem ⟨[⟨"General".data, []⟩]⟩ "Nope".data 0
      = (⟨[⟨"General".data, []⟩]⟩, none) ∧
    editItem ⟨[⟨"General".data, []⟩]⟩ "Nope".data 0 "y".data
      = (⟨[⟨"General".data, []⟩]⟩, none) ∧
    removeItem ⟨[⟨"General".data, []⟩]⟩ "Nope".data 0
      = (⟨[⟨"General".data, []⟩]⟩, none) := by decide

/-- C2 (amended): `addItem`, `toggleItem`, `editItem`, `removeItem`
with an unknown section name, and the index-based operations with an
out-of-range index, return the document unchanged and do not call
`saveTodoMd` at all — no write and no publish attempt happen. -/
theorem noop_addressing (d : Document) (name text : List Char) (i : Nat) :
    (findSection d.sections name = none →
        addItem d name text = (d, none) ∧ toggleItem d name i = (d, none) ∧
        editItem d name i text = (d, none) ∧ removeItem d name i = (d, none))
    ∧ (∀ sec, findSection d.sections name = some sec → nthItem sec.items i = none →
        toggleItem d name i = (d, none) ∧ editItem d name i text = (d, none) ∧
        removeItem d name i = (d, none)) := by
  constructor
  · intro h
    refine ⟨?_, ?_, ?_, ?_⟩ <;> simp [addItem, toggleItem, editItem, removeItem, h]
  · intro sec hs hi
    refine ⟨?_, ?_, ?_⟩ <;> simp [toggleItem, editItem, removeItem, hs, hi]

/-- Witness for the amended C2: unknown section name on a concrete
document, and an out-of-range index on its empty "General" section. -/
theorem noop_addressing_witness :
    (addItem ⟨[⟨"General".data, []⟩]⟩ "Nope".data "x".data
        = (⟨[⟨"General".data, []⟩]⟩, none) ∧
      toggleItem ⟨[⟨"General".data, []⟩]⟩ "Nope".data 0
        = (⟨[⟨"General".data, []⟩]⟩, none) ∧
      editItem ⟨[⟨"General".data, []⟩]⟩ "Nope".data 0 "x".data
        = (⟨[⟨"General".data, []⟩]⟩, none) ∧
      removeItem ⟨[⟨"General".data, []⟩]⟩ "Nope".data 0
        = (⟨[⟨"General".data, []⟩]⟩, none)) ∧
    (toggleItem ⟨[⟨"General".data, []⟩]⟩ "General".data 5
        = (⟨[⟨"General".data, []⟩]⟩, none) ∧
      editItem ⟨[⟨"General".data, []⟩]⟩ "General".data 5 "x".data
        = (⟨[⟨"General".data, []⟩]⟩, none) ∧
      removeItem ⟨[⟨"General".data, []⟩]⟩ "General".data 5
        = (⟨[⟨"General".data, []⟩]⟩, none)) :=
  ⟨(noop_addressing ⟨[⟨"General".data, []⟩]⟩ "Nope".data "x".data 0).1 (by decide),
    (noop_addressing ⟨[⟨"General".data, []⟩]⟩ "General".data "x".data 5).2
      ⟨"General".data, []⟩ (by decide) (by decide)⟩

/-- C3: removing sections never leaves zero sections: after any
sequence of `removeSection` calls the document still has a section;
a call whose filter empties the list yields exactly one empty
"General" section; and every section matching the removed name is
gone from the result, except for the reinserted default when the name
itself is "General". -/
theorem removeSection_invariant (d : Document) (names : List (List Char))
    (h : d.sections ≠ []) :
    (removeSeq d names).sections ≠ []
    ∧ (∀ n, d.sections.filter (fun sec => sec.name != n) = [] →
        (removeSection d n).fst = ⟨[⟨"General".data, []⟩]⟩)
    ∧ (∀ n s, s ∈ ((removeSection d n).fst).sections → s.name = n →
        s = ⟨"General".data, []⟩ ∧ n = "General".data) := by
  refine ⟨removeSeq_sections_ne_nil names d h, ?_, ?_⟩
  · intro n hn
    simp [removeSection, hn]
  · intro n s hs hname
    by_cases hrem : (d.sections.filter (fun sec => sec.name != n)).isEmpty
    · simp only [removeSection, hrem, if_pos] at hs
      simp at hs
      subst hs
      refine ⟨rfl, ?_⟩
      simpa using hname.symm
    · simp only [removeSection, if_neg hrem] at hs
      simp at hs
      exact absurd hname (by simpa using hs.2)

/-- Witness for C3: removing the only section "Work" of a concrete
document leaves the default "General" section, never zero sections. -/
theorem removeSection_invariant_witness :
    (removeSeq ⟨[⟨"Work".data, [⟨false, "a".data⟩]⟩]⟩ ["Work".data]).sections ≠ [] ∧
    (removeSection ⟨[⟨"Work".data, [⟨false, "a".data⟩]⟩]⟩ "Work".data).fst
      = ⟨[⟨"General".data, []⟩]⟩ :=
  ⟨(removeSection_invariant ⟨[⟨"Work".data, [⟨false, "a".data⟩]⟩]⟩ ["Work".data]
      (by decide)).1,
    (removeSection_invariant ⟨[⟨"Work".data, [⟨false, "a".data⟩]⟩]⟩ ["Work".data]
      (by decide)).2.1 "Work".data (by decide)⟩

/-- C7 counterexample: with the empty name — which names no existing
section — `addSection` appends nothing (the JS falsiness check `name
&&` short-circuits), contradicting the claimed unconditional append
for a name not already present. -/
theorem addSection_counterexample :
    (¬ ∃ s ∈ (Document.mk [⟨"General".data, []⟩]).sections, s.name = ([] : List Char)) ∧
    (addSection ⟨[⟨"General".data, []⟩]⟩ []).fst
      ≠ ⟨[⟨"General".data, []⟩, ⟨[], []⟩]⟩ := by decide

/-- C7 (amended): for every non-empty name, `addSection` leaves the
section list unchanged when a section of that name already exists, and
otherwise appends `{name, items: []}` at the end; the empty (falsy)
name is a no-op. -/
theorem addSection_spec (d : Document) (name : List Char) (h : name ≠ []) :
    ((∃ s ∈ d.sections, s.name = name) → (addSection d name).fst = d)
    ∧ ((¬ ∃ s ∈ d.sections, s.name = name) →
        (addSection d name).fst = ⟨d.sections ++ [⟨name, []⟩]⟩) := by
  constructor
  · rintro ⟨s, hs, hn⟩
    cases hf : findSection d.sections name with
    | none => exact absurd hn (findSection_eq_none _ _ hf s hs)
    | some sec => simp [addSection, hf]
  · intro hne
    cases hf : findSection d.sections name with
    | none => simp [addSection, h, hf]
    | some sec =>
      obtain ⟨hmem, hnm⟩ := findSection_eq_some _ _ _ hf
      exact absurd ⟨sec, hmem, hnm⟩ hne

/-- Witness for the amended C7: appending a fresh "Work" section, and
the no-op on a duplicate "General". -/
theorem addSection_spec_witness :
    (addSection ⟨[⟨"General".data, []⟩]⟩ "Work".data).fst
      = ⟨[⟨"General".data, []⟩] ++ [⟨"Work".data, []⟩]⟩ ∧
    (addSection ⟨[⟨"General".data, []⟩]⟩ "General".data).fst
      = ⟨[⟨"General".data, []⟩]⟩ :=
  ⟨(addSection_spec ⟨[⟨"General".data, []⟩]⟩ "Work".data (by decide)).2 (by decide),
    (addSection_spec ⟨[⟨"General".data, []⟩]⟩ "General".data (by decide)).1
      ⟨⟨"General".data, []⟩, by decide⟩⟩

end Todo

namespace Todo

lemma findSection_updateFirst (l : List Section) (n : List Char) (f : Section → Section)
    (hf : ∀ s, (f s).name = s.name) :
    findSection (updateFirst l n f) n = (findSection l n).map f := by
  induction l with
  | nil => rfl
  | cons s rest ih =>
    by_cases h : s.name = n
    · simp [updateFirst, findSection, h, hf s]
    · simp [updateFirst, findSection, h, ih]

lemma updateFirst_updateFirst (l : List Section) (n : List Char)
    (f g : Section → Section) (hf : ∀ s, (f s).name = s.name) :
    updateFirst (updateFirst l n f) n g = updateFirst l n (fun s => g (f s)) := by
  induction l with
  | nil => rfl
  | cons s rest ih =>
    by_cases h : s.name = n
    · simp [updateFirst, h, hf s]
    · simp [updateFirst, h, ih]

lemma updateFirst_self (l : List Section) (n : List Char) (sec : Section)
    (g : Section → Section) (hfind : findSection l n = some sec) (hg : g sec = sec) :
    updateFirst l n g = l := by
  induction l with
  | nil => simp [findSection] at hfind
  | cons s rest ih =>
    by_cases h : s.name = n
    · have hs : s = sec := by simpa [findSection, h] using hfind
      subst hs
      simp [updateFirst, h, hg]
    · simp only [findSection, if_neg h] at hfind
      simp [updateFirst, h, ih hfind]

lemma nthItem_setNth (l : List Item) (i : Nat) (it a : Item)
    (h : nthItem l i = some it) : nthItem (setNth l i a) i = some a := by
  induction l generalizing i with
  | nil => simp [nthItem] at h
  | cons x rest ih =>
    cases i with
    | zero => rfl
    | succ j => exact ih j (by simpa [nthItem] using h)

lemma setNth_setNth (l : List Item) (i : Nat) (a b : Item) :
    setNth (setNth l i a) i b = setNth l i b := by
  induction l generalizing i with
  | nil => rfl
  | cons x rest ih =>
    cases i with
    | zero => rfl
    | succ j => simp [setNth, ih j]

lemma setNth_self (l : List Item) (i : Nat) (it : Item)
    (h : nthItem l i = some it) : setNth l i it = l := by
  induction l generalizing i with
  | nil => rfl
  | cons x rest ih =>
    cases i with
    | zero => simpa [setNth, nthItem] using (by simpa [nthItem] using h : x = it).symm
    | succ j => simp [setNth, ih j (by simpa [nthItem] using h)]

/-- C6: toggling a valid `(section, index)` flips exactly that item's
`done` flag, keeping its text, and toggling it a second time restores
the original document; for the spec scenario this takes
`{done:false, text:"buy milk"}` to `{done:true, text:"buy milk"}` and
back. -/
theorem toggle_toggle (d : Document) (name : List Char) (i : Nat) (sec : Section)
    (it : Item) (hf : findSection d.sections name = some sec)
    (hi : nthItem sec.items i = some it) :
    (∃ sec1, findSection ((toggleItem d name i).fst).sections name = some sec1 ∧
        nthItem sec1.items i = some ⟨!it.done, it.text⟩)
    ∧ (toggleItem ((toggleItem d name i).fst) name i).fst = d := by
  have hnamef : ∀ s : Section,
      (Section.mk s.name (setNth s.items i ⟨!it.done, it.text⟩)).name = s.name :=
    fun s => rfl
  have hd1 : (toggleItem d name i).fst
      = ⟨updateFirst d.sections name
          (fun s => ⟨s.name, setNth s.items i ⟨!it.done, it.text⟩⟩)⟩ := by
    simp [toggleItem, hf, hi]
  have hfind1 : findSection
      (Document.mk (updateFirst d.sections name
        (fun s => ⟨s.name, setNth s.items i ⟨!it.done, it.text⟩⟩))).sections name
      = some ⟨sec.name, setNth sec.items i ⟨!it.done, it.text⟩⟩ := by
    show findSection (updateFirst d.sections name _) name = _
    rw [findSection_updateFirst d.sections name _ hnamef, hf]
    rfl
  have hnth1 : nthItem (setNth sec.items i ⟨!it.done, it.text⟩) i
      = some ⟨!it.done, it.text⟩ := nthItem_setNth sec.items i it _ hi
  constructor
  · rw [hd1]
    exact ⟨_, hfind1, hnth1⟩
  · rw [hd1]
    have hd2 : (toggleItem
        (Document.mk (updateFirst d.sections name
          (fun s => ⟨s.name, setNth s.items i ⟨!it.done, it.text⟩⟩))) name i).fst
        = ⟨updateFirst
            (updateFirst d.sections name
              (fun s => ⟨s.name, setNth s.items i ⟨!it.done, it.text⟩⟩)) name
            (fun s => ⟨s.name, setNth s.items i ⟨!(!it.done), it.text⟩⟩)⟩ := by
      simp [toggleItem, hfind1, hnth1]
    rw [hd2, updateFirst_updateFirst d.sections name _ _ hnamef]
    have heq : (fun s : Section =>
        Section.mk
          (Section.mk s.name (setNth s.items i ⟨!it.done, it.text⟩)).name
          (setNth (Section.mk s.name (setNth s.items i ⟨!it.done, it.text⟩)).items i
            ⟨!(!it.done), it.text⟩))
        = fun s : Section => ⟨s.name, setNth s.items i it⟩ := by
      funext s
      simp [setNth_setNth, Bool.not_not]
    rw [heq, updateFirst_self d.sections name sec _ hf
      (show Section.mk sec.name (setNth sec.items i it) = sec from by
        rw [setNth_self sec.items i it hi])]

/-- Witness for C6 at the spec scenario: section "General", index 0,
item `{done:false, text:"buy milk"}`. -/
theorem toggle_toggle_witness :
    (∃ sec1, findSection
        ((toggleItem ⟨[⟨"General".data, [⟨false, "buy milk".data⟩]⟩]⟩
            "General".data 0).fst).sections "General".data = some sec1 ∧
        nthItem sec1.items 0 = some ⟨true, "buy milk".data⟩)
    ∧ (toggleItem ((toggleItem ⟨[⟨"General".data, [⟨false, "buy milk".data⟩]⟩]⟩
          "General".data 0).fst) "General".data 0).fst
        = ⟨[⟨"General".data, [⟨false, "buy milk".data⟩]⟩]⟩ :=
  toggle_toggle ⟨[⟨"General".data, [⟨false, "buy milk".data⟩]⟩]⟩ "General".data 0
    ⟨"General".data, [⟨false, "buy milk".data⟩]⟩ ⟨false, "buy milk".data⟩
    (by decide) (by decide)

end Todo

namespace Todo

lemma dropWhile_dropWhile (p : Char → Bool) (l : List Char) :
    List.dropWhile p (List.dropWhile p l) = List.dropWhile p l := by
  induction l with
  | nil => rfl
  | cons a tl ih =>
    by_cases h : p a
    · simp [List.dropWhile_cons, h, ih]
    · simp [List.dropWhile_cons, h]

lemma head?_dropWhile_false (p : Char → Bool) (l : List Char) (x : Char)
    (h : (List.dropWhile p l).head? = some x) : p x = false := by
  induction l with
  | nil => simp [List.dropWhile] at h
  | cons a tl ih =>
    by_cases ha : p a
    · exact ih (by simpa [List.dropWhile_cons, ha] using h)
    · have : a = x := by simpa [List.dropWhile_cons, ha] using h
      subst this
      exact Bool.eq_false_iff.mpr ha

lemma getLast?_dropWhile (p : Char → Bool) (l : List Char)
    (h : List.dropWhile p l ≠ []) : (List.dropWhile p l).getLast? = l.getLast? := by
  induction l with
  | nil => simp at h
  | cons a tl ih =>
    by_cases ha : p a
    · rw [List.dropWhile_cons, if_pos ha] at h ⊢
      have htl : tl ≠ [] := by
        intro hnil
        subst hnil
        simp [List.dropWhile] at h
      rw [ih h]
      obtain ⟨b, tb, rfl⟩ := List.exists_cons_of_ne_nil htl
      exact (List.getLast?_cons_cons).symm
    · rw [List.dropWhile_cons, if_neg ha]

lemma dropWhile_eq_self_of_head? (p : Char → Bool) (l : List Char)
    (h : ∀ x, l.head? = some x → p x = false) : List.dropWhile p l = l := by
  cases l with
  | nil => rfl
  | cons a tl =>
    have := h a rfl
    simp [List.dropWhile_cons, this]

lemma jsTrim_idem (s : List Char) : jsTrim (jsTrim s) = jsTrim s := by
  simp only [jsTrim]
  have houter : List.dropWhile isWS
      ((s.dropWhile isWS).reverse.dropWhile isWS).reverse
      = ((s.dropWhile isWS).reverse.dropWhile isWS).reverse := by
    apply dropWhile_eq_self_of_head?
    intro x hx
    rw [List.head?_reverse] at hx
    have hne : (s.dropWhile isWS).reverse.dropWhile isWS ≠ [] := by
      intro hnil
      rw [hnil] at hx
      simp at hx
    rw [getLast?_dropWhile isWS _ hne, List.getLast?_reverse] at hx
    exact head?_dropWhile_false isWS s x hx
  rw [houter, List.reverse_reverse,
    dropWhile_dropWhile isWS (s.dropWhile isWS).reverse]

lemma parseLoop_trimOK (lines : List (List Char)) :
    ∀ (acc : List Section) (cur : Option Section),
      (∀ sec ∈ acc, trimOK sec) → (∀ sec ∈ cur.toList, trimOK sec) →
      ∀ sec ∈ parseLoop lines acc cur, trimOK sec := by
  induction lines with
  | nil =>
    intro acc cur hacc hcur sec hsec
    rw [parseLoop_nil] at hsec
    rcases List.mem_append.mp hsec with h | h
    · exact hacc sec h
    · exact hcur sec h
  | cons line rest ih =>
    intro acc cur hacc hcur sec hsec
    cases hms : matchSection line with
    | some name =>
      rw [parseLoop_header line rest acc cur name hms] at hsec
      refine ih _ _ ?_ ?_ sec hsec
      · intro x hx
        rcases List.mem_append.mp hx with h | h
        · exact hacc x h
        · exact hcur x h
      · intro x hx
        have : x = Section.mk (jsTrim name) [] := by simpa using hx
        subst this
        exact ⟨jsTrim_idem name, by simp⟩
    | none =>
      cases hmi : matchItem line with
      | some dt =>
        cases cur with
        | none =>
          rw [parseLoop_item_none line rest acc dt.1 dt.2 hms (by simpa using hmi)] at hsec
          exact ih _ _ hacc (by simp) sec hsec
        | some s =>
          rw [parseLoop_item line rest acc s dt.1 dt.2 hms (by simpa using hmi)] at hsec
          refine ih _ _ hacc ?_ sec hsec
          intro x hx
          have hxs : x = Section.mk s.name (s.items ++ [⟨dt.1, jsTrim dt.2⟩]) := by
            simpa using hx
          subst hxs
          have hs : trimOK s := hcur s (by simp)
          refine ⟨hs.1, ?_⟩
          intro it hit
          rcases List.mem_append.mp hit with h | h
          · exact hs.2 it h
          · have : it = Item.mk dt.1 (jsTrim dt.2) := by simpa using h
            subst this
            exact jsTrim_idem dt.2
      | none =>
        rw [parseLoop_skip line rest acc cur hms hmi] at hsec
        exact ih _ _ hacc hcur sec hsec

/-- C9: every document `parseTodoMd` returns is normalized — each
section name and each item text is invariant under `jsTrim` (they are
stored through `trim`), for every input content. -/
theorem parse_output_trimmed (content : List Char) :
    ∀ sec ∈ (parseTodoMd content).sections,
      jsTrim sec.name = sec.name ∧ ∀ it ∈ sec.items, jsTrim it.text = it.text := by
  intro sec hsec
  simp only [parseTodoMd] at hsec
  by_cases h : (parseLoop (splitLines content) [] none).isEmpty
  · rw [if_pos h] at hsec
    have : sec = Section.mk "General".data [] := by simpa using hsec
    subst this
    exact ⟨by decide, by simp⟩
  · rw [if_neg h] at hsec
    exact parseLoop_trimOK (splitLines content) [] none (by simp) (by simp) sec hsec

/-- Witness for C9: the parse of a content with untrimmed raw header
and item text yields trimmed stored strings. -/
theorem parse_output_trimmed_witness :
    jsTrim (Section.mk "A".data [⟨true, "b".data⟩]).name
        = (Section.mk "A".data [⟨true, "b".data⟩]).name ∧
    ∀ it ∈ (Section.mk "A".data [⟨true, "b".data⟩]).items,
      jsTrim it.text = it.text :=
  parse_output_trimmed "## A \n- [x]  b \n".data
    ⟨"A".data, [⟨true, "b".data⟩]⟩ (by decide)

end Todo

namespace Todo

lemma all_isDot_no_nl (t : List Char) (h : t.all isDot = true) : ∀ c ∈ t, c ≠ '\n' := by
  intro c hc hEq
  subst hEq
  exact absurd (List.all_eq_true.mp h _ hc) (by decide)

lemma headerLine_no_nl (name : List Char) (h : name.all isDot = true) :
    ∀ c ∈ headerLine name, c ≠ '\n' := by
  intro c hc
  simp only [headerLine, List.mem_cons] at hc
  rcases hc with rfl | rfl | rfl | hc
  · decide
  · decide
  · decide
  · exact all_isDot_no_nl name h c hc

lemma itemLine_no_nl (it : Item) (h : it.text.all isDot = true) :
    ∀ c ∈ itemLine it, c ≠ '\n' := by
  intro c hc
  simp only [itemLine, List.mem_cons] at hc
  rcases hc with rfl | rfl | rfl | rfl | rfl | rfl | hc
  · decide
  · decide
  · decide
  · split <;> decide
  · decide
  · decide
  · exact all_isDot_no_nl it.text h c hc

lemma splitLines_nl (s : List Char) : splitLines ('\n' :: s) = [] :: splitLines s := by
  simp [splitLines]

lemma splitLines_line (l s : List Char) (h : ∀ c ∈ l, c ≠ '\n') :
    splitLines (l ++ '\n' :: s) = l :: splitLines s := by
  induction l with
  | nil => exact splitLines_nl s
  | cons c cs ih =>
    have hc : c ≠ '\n' := h c (by simp)
    have ih' := ih (fun x hx => h x (by simp [hx]))
    rw [List.cons_append]
    simp only [splitLines]
    rw [if_neg hc, ih']

lemma splitLines_items (its : List Item) (h : ∀ it ∈ its, it.text.all isDot = true) :
    ∀ tail, splitLines ((its.map serializeItem).flatten ++ tail)
      = its.map itemLine ++ splitLines tail := by
  induction its with
  | nil => intro tail; simp
  | cons it rest ih =>
    intro tail
    have h1 := h it (by simp)
    have h2 : ∀ x ∈ rest, x.text.all isDot = true := fun x hx => h x (by simp [hx])
    simp only [List.map_cons, List.flatten_cons, serializeItem, List.append_assoc,
      List.cons_append, List.nil_append]
    rw [splitLines_line _ _ (itemLine_no_nl it h1), ih h2]

lemma splitLines_sections (ss : List Section)
    (h : ∀ s ∈ ss, s.name.all isDot = true ∧ ∀ it ∈ s.items, it.text.all isDot = true) :
    ∀ tail, splitLines ((ss.map serializeSection).flatten ++ tail)
      = (ss.map sectionLines).flatten ++ splitLines tail := by
  induction ss with
  | nil => intro tail; simp
  | cons s rest ih =>
    intro tail
    obtain ⟨hname, hitems⟩ := h s (by simp)
    have h2 : ∀ x ∈ rest, x.name.all isDot = true ∧ ∀ it ∈ x.items, it.text.all isDot = true :=
      fun x hx => h x (by simp [hx])
    simp only [List.map_cons, List.flatten_cons, serializeSection, sectionLines,
      List.cons_append, List.append_assoc]
    rw [splitLines_nl]
    rw [splitLines_line _ _ (headerLine_no_nl s.name hname)]
    rw [splitLines_nl]
    rw [splitLines_items s.items hitems, ih h2]

lemma splitLines_serialize (d : Document)
    (h : ∀ s ∈ d.sections, s.name.all isDot = true ∧
      ∀ it ∈ s.items, it.text.all isDot = true) :
    splitLines (serializeTodoMd d)
      = "# Todo List".data :: ((d.sections.map sectionLines).flatten ++ [[]]) := by
  have htitle : serializeTodoMd d
      = "# Todo List".data ++ '\n' :: (d.sections.map serializeSection).flatten := rfl
  rw [htitle, splitLines_line _ _ (by decide)]
  rw [show (d.sections.map serializeSection).flatten
    = (d.sections.map serializeSection).flatten ++ [] from (List.append_nil _).symm]
  rw [splitLines_sections d.sections h []]
  rfl

end Todo

namespace Todo

lemma matchSection_headerLine (name : List Char) (h1 : name ≠ [])
    (h2 : name.all isDot = true) : matchSection (headerLine name) = some name := by
  cases name with
  | nil => exact absurd rfl h1
  | cons a tl => simp [matchSection, headerLine, h2]

lemma matchItem_itemLine (it : Item) (h1 : it.text ≠ [])
    (h2 : it.text.all isDot = true) : matchItem (itemLine it) = some (it.done, it.text) := by
  obtain ⟨d, t⟩ := it
  simp only at h1 h2
  cases t with
  | nil => exact absurd rfl h1
  | cons a tl => cases d <;> simp [matchItem, itemLine, h2]

lemma matchSection_itemLine (it : Item) : matchSection (itemLine it) = none := rfl

lemma matchItem_headerLine : ∀ name : List Char, matchItem (headerLine name) = none
  | [] => rfl
  | [_] => rfl
  | [_, _] => rfl
  | _ :: _ :: _ :: _ => rfl

lemma parseLoop_itemLines (its : List Item) (h : ∀ it ∈ its, goodStr it.text) :
    ∀ (rest : List (List Char)) (acc : List Section) (name : List Char) (cur : List Item),
      parseLoop (its.map itemLine ++ rest) acc (some ⟨name, cur⟩)
        = parseLoop rest acc (some ⟨name, cur ++ its⟩) := by
  induction its with
  | nil => intro rest acc name cur; simp
  | cons it its' ih =>
    intro rest acc name cur
    obtain ⟨hne, hdot, htrim⟩ := h it (by simp)
    have h2 : ∀ x ∈ its', goodStr x.text := fun x hx => h x (by simp [hx])
    rw [List.map_cons, List.cons_append,
      parseLoop_item _ _ _ _ _ _ (matchSection_itemLine it) (matchItem_itemLine it hne hdot)]
    show parseLoop (its'.map itemLine ++ rest) acc
        (some ⟨name, cur ++ [⟨it.done, jsTrim it.text⟩]⟩) = _
    rw [htrim]
    show parseLoop (its'.map itemLine ++ rest) acc (some ⟨name, cur ++ [it]⟩) = _
    rw [ih h2]
    simp

lemma parseLoop_sectionLines (ss : List Section)
    (h : ∀ s ∈ ss, goodStr s.name ∧ ∀ it ∈ s.items, goodStr it.text) :
    ∀ (acc : List Section) (ocur : Option Section),
      parseLoop ((ss.map sectionLines).flatten ++ [[]]) acc ocur
        = acc ++ ocur.toList ++ ss := by
  induction ss with
  | nil =>
    intro acc ocur
    show parseLoop [[]] acc ocur = acc ++ ocur.toList ++ []
    rw [parseLoop_skip [] [] acc ocur rfl rfl, parseLoop_nil, List.append_nil]
  | cons s ss' ih =>
    intro acc ocur
    obtain ⟨⟨hne, hdot, htrim⟩, hitems⟩ := h s (by simp)
    have h2 : ∀ x ∈ ss', goodStr x.name ∧ ∀ it ∈ x.items, goodStr it.text :=
      fun x hx => h x (by simp [hx])
    simp only [List.map_cons, List.flatten_cons, sectionLines, List.cons_append,
      List.append_assoc]
    rw [parseLoop_skip [] _ _ _ rfl rfl,
      parseLoop_header _ _ _ _ _ (matchSection_headerLine s.name hne hdot),
      parseLoop_skip [] _ _ _ rfl rfl, htrim,
      parseLoop_itemLines s.items hitems]
    show parseLoop ((ss'.map sectionLines).flatten ++ [[]]) (acc ++ ocur.toList) (some s) = _
    rw [ih h2]
    simp

/-- C1 counterexample: the document whose single item text is
`"milk "` (trailing space — no newline, and shaped like neither a
section header nor a checklist line) does not survive the round trip:
parsing trims the text to `"milk"`. -/
theorem roundtrip_counterexample :
    (∀ sec ∈ (Document.mk [⟨"General".data, [⟨false, "milk ".data⟩]⟩]).sections,
        sec.name.contains '\n' = false ∧ matchSection sec.name = none ∧
        matchItem sec.name = none ∧
        ∀ it ∈ sec.items, it.text.contains '\n' = false ∧
          matchSection it.text = none ∧ matchItem it.text = none)
    ∧ parseTodoMd (serializeTodoMd ⟨[⟨"General".data, [⟨false, "milk ".data⟩]⟩]⟩)
        ≠ ⟨[⟨"General".data, [⟨false, "milk ".data⟩]⟩]⟩ := by decide

/-- C1 (amended): `parse(serialize(d)) = d` for every document with at
least one section whose section names and item texts are non-empty,
contain no regex line terminator (`\n`, `\r`, LS, PS), and are
invariant under `trim` (no leading/trailing whitespace). -/
theorem parse_serialize_roundtrip (d : Document) (hne : d.sections ≠ [])
    (hgood : ∀ sec ∈ d.sections, goodStr sec.name ∧ ∀ it ∈ sec.items, goodStr it.text) :
    parseTodoMd (serializeTodoMd d) = d := by
  have hdot : ∀ s ∈ d.sections, s.name.all isDot = true ∧
      ∀ it ∈ s.items, it.text.all isDot = true := by
    intro s hs
    obtain ⟨⟨_, hd, _⟩, hits⟩ := hgood s hs
    exact ⟨hd, fun it hit => (hits it hit).2.1⟩
  simp only [parseTodoMd]
  rw [splitLines_serialize d hdot,
    parseLoop_skip _ _ _ _ (by decide) (by decide),
    parseLoop_sectionLines d.sections hgood [] none]
  simp only [List.nil_append, Option.toList, List.append_nil]
  rw [if_neg (by simpa using hne)]

/-- Witness for the amended C1 on a two-section document. -/
theorem parse_serialize_roundtrip_witness :
    parseTodoMd (serializeTodoMd
        ⟨[⟨"Work".data, [⟨true, "ship".data⟩, ⟨false, "plan a trip".data⟩]⟩,
          ⟨"Home".data, []⟩]⟩)
      = ⟨[⟨"Work".data, [⟨true, "ship".data⟩, ⟨false, "plan a trip".data⟩]⟩,
          ⟨"Home".data, []⟩]⟩ :=
  parse_serialize_roundtrip _ (by decide) (by decide)

end Todo
